import Mathlib

/-!
Verification of breml/githooks commit-msg-lint core.

Strings from the Go source are embedded as lists of characters (`Str`),
so that every operation (splitting, trimming, joining) is an executable,
inductively provable function. Each definition mirrors one Go function of
the repository; doc comments name the source function.
-/

set_option maxHeartbeats 1000000

/-- Strings of the Go program are embedded as lists of unicode characters. -/
abbrev Str := List Char

namespace Githooks

/-- Embeds Go unicode.IsSpace (the White_Space property), used by
strings.TrimSpace and strings.Fields in the source. -/
def goIsSpace (c : Char) : Bool :=
  c = ' ' || c = '\t' || c = '\n' || c = '\x0b' || c = '\x0c' || c = '\r' ||
  c = '\u0085' || c = ' ' || c = ' ' ||
  c = ' ' || c = ' ' || c = ' ' || c = ' ' || c = ' ' ||
  c = ' ' || c = ' ' || c = ' ' || c = ' ' || c = ' ' ||
  c = ' ' || c = ' ' || c = ' ' || c = ' ' || c = ' ' ||
  c = '　'

/-- Embeds strings.TrimSpace: drop leading and trailing whitespace. -/
def trimSpace (s : Str) : Str :=
  ((s.dropWhile goIsSpace).reverse.dropWhile goIsSpace).reverse

/-- Embeds strings.ReplaceAll(message, CRLF, LF) from ParseCommitMessage
(parser.go line 24): left-to-right non-overlapping replacement. -/
def replaceCRLF : Str → Str
  | [] => []
  | '\r' :: '\n' :: rest => '\n' :: replaceCRLF rest
  | c :: rest => c :: replaceCRLF rest

/-- Embeds strings.TrimRight(message, LF) from ParseCommitMessage
(parser.go line 25): drop trailing newline characters. -/
def trimRightNl (s : Str) : Str :=
  (s.reverse.dropWhile (fun c => decide (c = '\n'))).reverse

/-- Embeds strings.Split(message, LF) from splitIntoSections
(parser.go line 68): the empty string yields one empty piece. -/
def splitOnNl : Str → List Str
  | [] => [[]]
  | c :: rest =>
    if c = '\n' then [] :: splitOnNl rest
    else
      match splitOnNl rest with
      | [] => [[c]]
      | s :: ss => (c :: s) :: ss

/-- Embeds strings.Join(parts, sep) (parser.go lines 61, 77, 89). -/
def strJoin (sep : Str) : List Str → Str
  | [] => []
  | [s] => s
  | s :: rest => s ++ sep ++ strJoin sep rest

/-- Embeds isEmptyLine (parser.go lines 95-97):
strings.TrimSpace(line) == "". -/
def isEmptyLine (line : Str) : Bool :=
  decide (trimSpace line = [])

/-- Embeds the loop body of splitIntoSections (parser.go lines 73-91):
first argument is the remaining lines, second the current section
accumulator; blank lines flush the accumulator. -/
def sectionsLoop : List Str → List Str → List Str
  | [], cur => if cur = [] then [] else [strJoin ['\n'] cur]
  | line :: rest, cur =>
    if isEmptyLine line then
      if cur = [] then sectionsLoop rest []
      else strJoin ['\n'] cur :: sectionsLoop rest []
    else sectionsLoop rest (cur ++ [line])

/-- Embeds splitIntoSections (parser.go lines 67-93). -/
def splitIntoSections (message : Str) : List Str :=
  sectionsLoop (splitOnNl message) []

/-- The normalization prefix of ParseCommitMessage (parser.go lines 24-25):
CRLF collapsed to LF, trailing newlines stripped. -/
def normalizeMessage (message : Str) : Str :=
  trimRightNl (replaceCRLF message)

/-- Embeds ParsedCommitMessage (parser.go lines 8-13). -/
structure ParsedCommitMessage where
  raw : Str
  title : Str
  body : Str
  footer : Str
deriving DecidableEq, Repr

/-- Embeds ParseCommitMessage (parser.go lines 22-64): normalize, split into
sections, then assign title/body/footer by section count. -/
def ParseCommitMessage (message : Str) : ParsedCommitMessage :=
  let normalized := normalizeMessage message
  let sections := splitIntoSections normalized
  if sections.length = 0 then ⟨normalized, [], [], []⟩
  else
    let title := sections.headD []
    if sections.length = 1 then ⟨normalized, title, [], []⟩
    else if sections.length = 2 then ⟨normalized, title, [], sections.getD 1 []⟩
    else
      ⟨normalized, title, strJoin ['\n', '\n'] ((sections.drop 1).dropLast),
        sections.getLastD []⟩

/-- Embeds the Go constant RuleTypeDeny = "deny" (config.go line 21). -/
def ruleTypeDeny : Str := ['d', 'e', 'n', 'y']

/-- Embeds the Go constant RuleTypeRequire = "require" (config.go line 23). -/
def ruleTypeRequire : Str := ['r', 'e', 'q', 'u', 'i', 'r', 'e']

/-- Embeds the Go constant ScopeTitle = "title" (config.go line 31). -/
def scopeTitle : Str := ['t', 'i', 't', 'l', 'e']

/-- Embeds the Go constant ScopeBody = "body" (config.go line 33). -/
def scopeBody : Str := ['b', 'o', 'd', 'y']

/-- Embeds the Go constant ScopeFooter = "footer" (config.go line 35). -/
def scopeFooter : Str := ['f', 'o', 'o', 't', 'e', 'r']

/-- Embeds the Go constant ScopeMessage = "message" (config.go line 37). -/
def scopeMessage : Str := ['m', 'e', 's', 's', 'a', 'g', 'e']

/-- Embeds Rule (config.go lines 47-56). RuleType and Scope are string
types in Go, embedded as Str. The cached compiled pattern regex is an
external regexp object of which the engine only uses MatchString
(rules.go line 24); it is embedded as its matching function. -/
structure Rule where
  name : Str
  type : Str
  scope : Str
  pattern : Str
  message : Str
  regex : Str → Bool

/-- Embeds RuleViolation (rules.go lines 8-12). -/
structure RuleViolation where
  rule : Rule
  matched : Bool

/-- Embeds getTextForScope (rules.go lines 65-82): select the scope text,
defaulting to the empty string for an unknown scope. -/
def getTextForScope (scope : Str) (message : ParsedCommitMessage) : Str :=
  if scope = scopeTitle then message.title
  else if scope = scopeBody then message.body
  else if scope = scopeFooter then message.footer
  else if scope = scopeMessage then message.raw
  else []

/-- Embeds EvaluateRules (rules.go lines 16-45): one pass over the rules in
order, appending a violation with the matched flag when a deny rule matched
or a require rule did not. -/
def EvaluateRules : List Rule → ParsedCommitMessage → List RuleViolation
  | [], _ => []
  | rule :: rules, message =>
    let text := getTextForScope rule.scope message
    let matched := rule.regex text
    if (rule.type = ruleTypeDeny ∧ matched = true) ∨
        (rule.type = ruleTypeRequire ∧ matched = false) then
      ⟨rule, matched⟩ :: EvaluateRules rules message
    else
      EvaluateRules rules message

/-- The external regexp.Compile collaborator: a pattern string either fails
to compile (none) or yields a matching function. -/
abbrev RegexCompiler := Str → Option (Str → Bool)

/-- Embeds shouldSkipAuthor (rules.go lines 48-63): patterns that fail to
compile are silently skipped; a compiling pattern that matches the name or
the email decides true; otherwise false. -/
def shouldSkipAuthor (compile : RegexCompiler) (name email : Str) :
    List Str → Bool
  | [] => false
  | pat :: pats =>
    match compile pat with
    | none => shouldSkipAuthor compile name email pats
    | some re =>
      if re name || re email then true
      else shouldSkipAuthor compile name email pats

/-- Specification-side restatement of section 4.2 of the spec: a rule is
violated when its pattern matches (deny) or fails to match (require) the
text selected by its scope. Used to state the claim about EvaluateRules. -/
def violatesRule (rule : Rule) (message : ParsedCommitMessage) : Bool :=
  let matched := rule.regex (getTextForScope rule.scope message)
  if rule.type = ruleTypeDeny then matched
  else if rule.type = ruleTypeRequire then !matched
  else false

/-- Embeds Settings (config.go lines 59-63 plus the main_ref field present
in the released configuration, see main.go lines 267, 419-421). -/
structure Settings where
  failFast : Bool
  skipMergeCommits : Bool
  skipAuthors : List Str
  mainRef : Str
deriving DecidableEq, Repr

/-- Embeds Config (config.go lines 41-44). -/
structure Config where
  rules : List Rule
  settings : Settings

/-- Embeds the commit data the program reads from go-git object.Commit:
hash, parent hashes, author name and email, message, committer time. -/
structure Commit where
  hash : Str
  parents : List Str
  authorName : Str
  authorEmail : Str
  message : Str
  ctime : Nat
deriving DecidableEq, Repr

/-- Embeds repo.CommitObject(hash) of the external go-git store: find the
commit with the given hash. -/
def lookupC (repo : List Commit) (h : Str) : Option Commit :=
  repo.find? (fun c => decide (c.hash = h))

/-- The hashes stored in the repository. -/
def hashesOf (repo : List Commit) : List Str :=
  repo.map Commit.hash

/-- A well-formed repository stores every parent of every commit. -/
def closedRepo (repo : List Commit) : Prop :=
  ∀ c ∈ repo, ∀ p ∈ c.parents, p ∈ hashesOf repo

/-- A well-formed repository stores each hash at most once. -/
def nodupHashes (repo : List Commit) : Prop :=
  (hashesOf repo).Nodup

/-- Ancestry in the commit graph: b is reachable from a by following
parent links (reflexively, as the go-git commit iterators do). -/
inductive Reach (repo : List Commit) : Str → Str → Prop where
  | refl (h : Str) : Reach repo h h
  | step {a p b : Str} {c : Commit} (hc : lookupC repo a = some c)
      (hp : p ∈ c.parents) (hr : Reach repo p b) : Reach repo a b

/-- Modelled from the spec: the external go-git commit iterator
(object.NewCommitIterCTime, used by getCommitsInRange in main.go lines
493, 504) enumerates every commit reachable from its start, each exactly
once, in a deterministic order. Following section 9 of the spec it is
embedded as an explicit worklist traversal with a visited list, made total
by fuel; walkFuel below always suffices. -/
def walk (repo : List Commit) : Nat → List Str → List Commit → List Commit
  | 0, _, vis => vis
  | _ + 1, [], vis => vis
  | fuel + 1, h :: rest, vis =>
    if h ∈ vis.map Commit.hash then walk repo fuel rest vis
    else
      match lookupC repo h with
      | none => walk repo fuel rest vis
      | some c => walk repo fuel (rest ++ c.parents) (vis ++ [c])

/-- Fuel still needed by walk: pending worklist entries plus, for every
unvisited commit, one visit step and one step per parent edge. -/
def pendingSum (repo : List Commit) (vis : List Commit) : Nat :=
  ((repo.filter (fun c => decide (c.hash ∉ vis.map Commit.hash))).map
    (fun c => c.parents.length + 1)).sum

/-- Total fuel consumed by walk from a given state. -/
def walkMeasure (repo : List Commit) (wl : List Str) (vis : List Commit) :
    Nat :=
  wl.length + pendingSum repo vis

/-- Fuel sufficient for a walk of the whole repository from one root. -/
def walkFuel (repo : List Commit) : Nat :=
  1 + ((repo.map (fun c => c.parents.length + 1)).sum)

/-- The commits enumerated by the external commit iterator started at s:
every commit reachable from s, each exactly once. -/
def ancestors (repo : List Commit) (s : Str) : List Commit :=
  walk repo (walkFuel repo) [s] []

/-- Error cases of getCommitsInRange (main.go lines 481, 488): an endpoint
hash that does not resolve to a commit. -/
inductive RangeError where
  | newNotFound (h : Str)
  | oldNotFound (h : Str)
deriving DecidableEq, Repr

/-- Embeds getCommitsInRange (main.go lines 476-517): resolve both
endpoints (new first), collect the hashes reachable from the old endpoint
into a set, then keep every commit enumerated from the new endpoint whose
hash is not in that set. -/
def getCommitsInRange (repo : List Commit) (oldCommit newCommit : Str) :
    Except RangeError (List Commit) :=
  match lookupC repo newCommit with
  | none => Except.error (RangeError.newNotFound newCommit)
  | some _ =>
    match lookupC repo oldCommit with
    | none => Except.error (RangeError.oldNotFound oldCommit)
    | some _ =>
      let oldCommits := (ancestors repo oldCommit).map Commit.hash
      Except.ok ((ancestors repo newCommit).filter
        (fun c => decide (c.hash ∉ oldCommits)))

/-- Embeds the repository handle: the commit store plus the external
ResolveRevision collaborator, embedded as a table from revision names
(branches, tags, HEAD) to commit hashes. -/
structure Repo where
  commits : List Commit
  refs : List (Str × Str)

/-- Lookup of a revision name in the ref table. -/
def refLookup (refs : List (Str × Str)) (name : Str) : Option Str :=
  (refs.find? (fun r => decide (r.1 = name))).map (fun r => r.2)

/-- Embeds resolveRefOrSHA (main.go lines 280-297): try the name as a
revision first and fetch its commit; if either step fails, try the string
as a raw hash. -/
def resolveRefOrSHA (repo : Repo) (refOrSHA : Str) : Option Commit :=
  match refLookup repo.refs refOrSHA with
  | some h =>
    match lookupC repo.commits h with
    | some c => some c
    | none => lookupC repo.commits refOrSHA
  | none => lookupC repo.commits refOrSHA

/-- Embeds the Go constant gitZeroHash (main.go line 236): the all-zero
40-character sentinel. -/
def gitZeroHash : Str := List.replicate 40 '0'

/-- Embeds the Go constant minRefFields = 4 (main.go line 233). -/
def minRefFields : Nat := 4

/-- Splitting used by fieldsOf: cut at whitespace characters. -/
def splitBySpace : Str → List Str
  | [] => [[]]
  | c :: rest =>
    if goIsSpace c then [] :: splitBySpace rest
    else
      match splitBySpace rest with
      | [] => [[c]]
      | s :: ss => (c :: s) :: ss

/-- Embeds strings.Fields (main.go line 310): the maximal runs of
non-whitespace characters. -/
def fieldsOf (s : Str) : List Str :=
  (splitBySpace s).filter (fun f => decide (f ≠ []))

/-- The structured validation failure surfaced on the first offending
commit (main.go line 374): the commit, the ref name being pushed, and the
ordered violation list handed to formatViolationError. -/
structure ValidationFailure where
  commit : Commit
  ref : Str
  violations : List RuleViolation

/-- The error cases runStdinMode can return (main.go lines 330, 340):
failure to resolve the configured main ref, failure to fetch the commit
range, or a validation failure. -/
inductive RunError where
  | resolveMain (ref : Str)
  | getCommits (e : RangeError)
  | validation (f : ValidationFailure)

/-- Embeds validateCommits (main.go lines 355-379): scan the commits in
order, skip merge commits when configured and author-skipped commits, and
stop at the first commit with a non-empty violation list. -/
def validateCommits (compile : RegexCompiler) (config : Config) :
    List Commit → Str → Option ValidationFailure
  | [], _ => none
  | commit :: commits, refName =>
    if config.settings.skipMergeCommits = true ∧ commit.parents.length > 1 then
      validateCommits compile config commits refName
    else if shouldSkipAuthor compile commit.authorName commit.authorEmail
        config.settings.skipAuthors then
      validateCommits compile config commits refName
    else
      let parsed := ParseCommitMessage commit.message
      let violations := EvaluateRules config.rules parsed
      if violations.length > 0 then some ⟨commit, refName, violations⟩
      else validateCommits compile config commits refName

/-- Embeds checkCommits (main.go lines 450-473) as called from stdin mode,
where the range string is always oldCommit..newCommit (main.go line 337):
the formatting of the two endpoints into a range string and its immediate
re-splitting cancel for the dot-free hex OIDs of the hook protocol, so the
two endpoints are passed directly. -/
def checkCommits (compile : RegexCompiler) (config : Config) (repo : Repo)
    (oldCommit newCommit refName : Str) : Option RunError :=
  match getCommitsInRange repo.commits oldCommit newCommit with
  | Except.error e => some (RunError.getCommits e)
  | Except.ok commits =>
    (validateCommits compile config commits refName).map RunError.validation

/-- Embeds runStdinMode (main.go lines 300-352): one pre-push input line
per list entry (the scanner strips line terminators), processed in order;
the first error stops the run. -/
def runStdinMode (compile : RegexCompiler) (config : Config) (repo : Repo) :
    List Str → Option RunError
  | [] => none
  | line :: rest =>
    let trimmed := trimSpace line
    if trimmed = [] then runStdinMode compile config repo rest
    else
      let fs := fieldsOf trimmed
      if fs.length < minRefFields then runStdinMode compile config repo rest
      else
        let localRef := fs.getD 0 []
        let localOID := fs.getD 1 []
        let remoteOID := fs.getD 3 []
        if localOID = gitZeroHash then runStdinMode compile config repo rest
        else if remoteOID = gitZeroHash then
          match resolveRefOrSHA repo config.settings.mainRef with
          | none => some (RunError.resolveMain config.settings.mainRef)
          | some mainCommit =>
            match checkCommits compile config repo mainCommit.hash localOID
                localRef with
            | some e => some e
            | none => runStdinMode compile config repo rest
        else
          match checkCommits compile config repo remoteOID localOID
              localRef with
          | some e => some e
          | none => runStdinMode compile config repo rest

/-- The error case of parseArgs (main.go line 272): base-ref without
head-ref. -/
inductive ArgsError where
  | headRefRequired
deriving DecidableEq, Repr

/-- Embeds parseArgs (main.go lines 242-276) after the external flag
library has extracted the two string flag values (the empty string when a
flag is absent, as with flag.StringVar defaults). -/
def parseArgs (config : Config) (base head : Str) :
    Except ArgsError (Str × Str) :=
  if base = [] ∧ head = [] then Except.ok ([], [])
  else
    let base1 := if base = [] ∧ head ≠ [] then config.settings.mainRef
      else base
    if base1 ≠ [] ∧ head = [] then Except.error ArgsError.headRefRequired
    else Except.ok (base1, head)

/-- Embeds the Go constant defaultMainRef = "main" (main.go line 237). -/
def defaultMainRef : Str := ['m', 'a', 'i', 'n']

/-- Embeds the main_ref defaulting in Run (main.go lines 418-421). -/
def applyMainRefDefault (s : Settings) : Settings :=
  if s.mainRef = [] then { s with mainRef := defaultMainRef } else s

/-- Embeds the skip_merge_commits defaulting in Run (main.go lines
429-432): the setting is forced to true whenever it is false. -/
def applySkipMergeDefault (s : Settings) : Settings :=
  if s.skipMergeCommits = false then { s with skipMergeCommits := true }
  else s

/-- One parsed ref-update event of the pre-push protocol. -/
structure RefEvent where
  localRef : Str
  localOID : Str
  remoteOID : Str
deriving DecidableEq, Repr

/-- The event a stdin line yields, mirrored from the line handling of
runStdinMode (main.go lines 305-321): none for blank lines, short lines
and branch deletions. -/
def parseEvent (line : Str) : Option RefEvent :=
  let trimmed := trimSpace line
  if trimmed = [] then none
  else
    let fs := fieldsOf trimmed
    if fs.length < minRefFields then none
    else
      let localRef := fs.getD 0 []
      let localOID := fs.getD 1 []
      let remoteOID := fs.getD 3 []
      if localOID = gitZeroHash then none
      else some ⟨localRef, localOID, remoteOID⟩

/-- The commit range an event resolves to, mirrored from runStdinMode
(main.go lines 324-337): a zero remote OID marks a new branch and the
configured main ref is substituted as the effective base. -/
def eventCommits (config : Config) (repo : Repo) (e : RefEvent) :
    Except RunError (List Commit) :=
  if e.remoteOID = gitZeroHash then
    match resolveRefOrSHA repo config.settings.mainRef with
    | none => Except.error (RunError.resolveMain config.settings.mainRef)
    | some mainCommit =>
      (getCommitsInRange repo.commits mainCommit.hash e.localOID).mapError
        RunError.getCommits
  else
    (getCommitsInRange repo.commits e.remoteOID e.localOID).mapError
      RunError.getCommits

/-- The flattened (ref name, commit) pairs a whole stdin stream submits to
validation, events in input order and commits in resolver order. -/
def stdinPairs (config : Config) (repo : Repo) (stdin : List Str) :
    List (Str × Commit) :=
  stdin.flatMap (fun line =>
    match parseEvent line with
    | none => []
    | some e =>
      match eventCommits config repo e with
      | Except.error _ => []
      | Except.ok cs => cs.map (fun c => (e.localRef, c)))

/-- The two skip filters of validateCommits (main.go lines 357-365)
combined: merge-skip or author-skip. -/
def skipsCommit (compile : RegexCompiler) (config : Config) (c : Commit) :
    Bool :=
  (config.settings.skipMergeCommits && decide (c.parents.length > 1)) ||
    shouldSkipAuthor compile c.authorName c.authorEmail
      config.settings.skipAuthors

/-- Specification-side restatement of section 4.4 of the spec: scanning the
flattened (ref, commit) pairs in order, the first surviving commit with a
non-empty violation list produces the failure carrying that commit, its
ref and its violations. -/
def firstOffender (compile : RegexCompiler) (config : Config) :
    List (Str × Commit) → Option ValidationFailure
  | [] => none
  | (refName, c) :: rest =>
    if skipsCommit compile config c then firstOffender compile config rest
    else
      let violations := EvaluateRules config.rules (ParseCommitMessage c.message)
      if violations.length = 0 then firstOffender compile config rest
      else some ⟨c, refName, violations⟩

/-- A regexp environment in which no pattern compiles, as with a list of
syntactically invalid patterns. -/
def compileNone : RegexCompiler := fun _ => none

/-- A deny rule on the title scope for the Go pattern "z", whose compiled
matcher finds any occurrence of the character z. -/
def demoDenyRule : Rule :=
  ⟨['n', 'o', 'z'], ruleTypeDeny, scopeTitle, ['z'], [],
    fun t => decide ('z' ∈ t)⟩

/-- A deny rule with an unknown scope for the Go pattern "a*", whose
compiled matcher matches every string, the empty string included. -/
def weirdScopeRule : Rule :=
  ⟨['n', 'o', 'a'], ruleTypeDeny, ['o', 'd', 'd'], ['a', '*'], [],
    fun _ => true⟩

/-- Settings used by the concrete witnesses. -/
def demoSettings : Settings :=
  ⟨false, false, [], defaultMainRef⟩

/-- A root commit with hash a. -/
def demoA : Commit := ⟨['a'], [], ['u'], ['u'], ['o', 'k'], 1⟩

/-- A commit with hash b on top of a. -/
def demoB : Commit := ⟨['b'], [['a']], ['u'], ['u'], ['o', 'k'], 2⟩

/-- A commit with hash c on top of a, diverged from b. -/
def demoC : Commit := ⟨['c'], [['a']], ['u'], ['u'], ['o', 'k'], 3⟩

/-- A merge commit with hash d joining b and c, with a message that the
demo deny rule would reject. -/
def demoMerge : Commit := ⟨['d'], [['b'], ['c']], ['u'], ['u'], ['z'], 4⟩

/-- A three-commit store with two diverged branches above one root. -/
def demoStore : List Commit := [demoA, demoB, demoC]

/-- A repository whose main ref points at the root commit a. -/
def demoRepo : Repo := ⟨demoStore, [(defaultMainRef, ['a'])]⟩

/-- A configuration with the demo deny rule and the demo settings. -/
def demoConfig : Config := ⟨[demoDenyRule], demoSettings⟩

/-- A pre-push stdin line pushing the new branch head b: local ref x,
local OID b, remote ref x, remote OID the zero sentinel. -/
def demoLine : Str :=
  ['x'] ++ [' '] ++ ['b'] ++ [' '] ++ ['x'] ++ [' '] ++ gitZeroHash

end Githooks

namespace Githooks

theorem strJoin_ne_nil (sep : Str) (x : Str) (xs : List Str) (hx : x ≠ []) :
    strJoin sep (x :: xs) ≠ [] := by
  cases xs with
  | nil => simpa [strJoin] using hx
  | cons y ys =>
    simp only [strJoin, ne_eq, List.append_assoc, List.append_eq_nil]
    rintro ⟨h, -⟩
    exact hx h

theorem getLastD_mem : ∀ (l : List Str) (d : Str), l ≠ [] → l.getLastD d ∈ l
  | [a], _, _ => by simp
  | a :: b :: rest, d, _ => by
    have ih := getLastD_mem (b :: rest) d (by simp)
    simp only [List.getLastD] at ih ⊢
    exact List.mem_cons_of_mem a ih

theorem isEmptyLine_nil : isEmptyLine [] = true := by
  simp [isEmptyLine, trimSpace]

theorem sectionsLoop_ne_nil :
    ∀ (lines : List Str) (cur : List Str),
      (∀ l ∈ cur, isEmptyLine l = false) →
      ∀ s ∈ sectionsLoop lines cur, s ≠ []
  | [], cur, hcur => by
    intro s hs
    by_cases h : cur = []
    · simp [sectionsLoop, h] at hs
    · simp only [sectionsLoop, if_neg h, List.mem_singleton] at hs
      subst hs
      obtain ⟨c0, cs, rfl⟩ : ∃ c0 cs, cur = c0 :: cs := by
        cases cur with
        | nil => exact absurd rfl h
        | cons c0 cs => exact ⟨c0, cs, rfl⟩
      refine strJoin_ne_nil _ _ _ ?_
      intro hc0
      have := hcur c0 (by simp)
      rw [hc0, isEmptyLine_nil] at this
      simp at this
  | line :: rest, cur, hcur => by
    intro s hs
    by_cases hline : isEmptyLine line
    · by_cases h : cur = []
      · simp only [sectionsLoop, hline, if_true, if_pos h] at hs
        exact sectionsLoop_ne_nil rest [] (by simp) s hs
      · simp only [sectionsLoop, hline, if_true, if_neg h, List.mem_cons] at hs
        rcases hs with rfl | hs
        · obtain ⟨c0, cs, rfl⟩ : ∃ c0 cs, cur = c0 :: cs := by
            cases cur with
            | nil => exact absurd rfl h
            | cons c0 cs => exact ⟨c0, cs, rfl⟩
          refine strJoin_ne_nil _ _ _ ?_
          intro hc0
          have := hcur c0 (by simp)
          rw [hc0, isEmptyLine_nil] at this
          simp at this
        · exact sectionsLoop_ne_nil rest [] (by simp) s hs
    · simp only [sectionsLoop, hline, if_false, Bool.false_eq_true] at hs
      refine sectionsLoop_ne_nil rest (cur ++ [line]) ?_ s hs
      intro l hl
      rcases List.mem_append.mp hl with hl | hl
      · exact hcur l hl
      · rw [List.mem_singleton.mp hl]
        exact Bool.not_eq_true _ ▸ (by simpa using hline)

theorem splitIntoSections_ne_nil (m : Str) :
    ∀ s ∈ splitIntoSections m, s ≠ [] :=
  sectionsLoop_ne_nil (splitOnNl m) [] (by simp)

theorem parse_sections_nil (message : Str)
    (h : splitIntoSections (normalizeMessage message) = []) :
    ParseCommitMessage message = ⟨normalizeMessage message, [], [], []⟩ := by
  simp [ParseCommitMessage, h]

theorem parse_sections_one (message t : Str)
    (h : splitIntoSections (normalizeMessage message) = [t]) :
    ParseCommitMessage message = ⟨normalizeMessage message, t, [], []⟩ := by
  simp [ParseCommitMessage, h]

theorem parse_sections_two (message t f : Str)
    (h : splitIntoSections (normalizeMessage message) = [t, f]) :
    ParseCommitMessage message = ⟨normalizeMessage message, t, [], f⟩ := by
  simp [ParseCommitMessage, h]

theorem parse_sections_big (message s0 s1 s2 : Str) (rest : List Str)
    (h : splitIntoSections (normalizeMessage message) = s0 :: s1 :: s2 :: rest) :
    ParseCommitMessage message =
      ⟨normalizeMessage message, s0,
        strJoin ['\n', '\n'] ((s1 :: s2 :: rest).dropLast),
        (s0 :: s1 :: s2 :: rest).getLastD []⟩ := by
  simp [ParseCommitMessage, h]

/-- C2: ParseCommitMessage assigns fields exactly by the section-count
policy over the blank-line-delimited sections of the normalized text:
0 sections give all fields empty, 1 section gives only the title, 2
sections give title and footer, 3 or more give title, footer, and the
middle sections joined by a blank line as body. -/
theorem c2_section_count_policy (message : Str) :
    (ParseCommitMessage message).raw = normalizeMessage message ∧
    (splitIntoSections (normalizeMessage message) = [] →
      ParseCommitMessage message = ⟨normalizeMessage message, [], [], []⟩) ∧
    (∀ t, splitIntoSections (normalizeMessage message) = [t] →
      ParseCommitMessage message = ⟨normalizeMessage message, t, [], []⟩) ∧
    (∀ t f, splitIntoSections (normalizeMessage message) = [t, f] →
      ParseCommitMessage message = ⟨normalizeMessage message, t, [], f⟩) ∧
    (∀ t mid f, mid ≠ [] →
      splitIntoSections (normalizeMessage message) = t :: (mid ++ [f]) →
      ParseCommitMessage message =
        ⟨normalizeMessage message, t, strJoin ['\n', '\n'] mid, f⟩) := by
  refine ⟨?_, parse_sections_nil message, parse_sections_one message,
    parse_sections_two message, ?_⟩
  · rcases hsec : splitIntoSections (normalizeMessage message) with
      - | ⟨t, - | ⟨f, - | ⟨g, rest⟩⟩⟩
    · rw [parse_sections_nil message hsec]
    · rw [parse_sections_one message t hsec]
    · rw [parse_sections_two message t f hsec]
    · rw [parse_sections_big message t f g rest hsec]
  · intro t mid f hmid hsec
    obtain ⟨m1, mid', rfl⟩ : ∃ m1 mid', mid = m1 :: mid' := by
      cases mid with
      | nil => exact absurd rfl hmid
      | cons m1 mid' => exact ⟨m1, mid', rfl⟩
    obtain ⟨s2, rest2, h2⟩ : ∃ y ys, mid' ++ [f] = y :: ys := by
      cases mid' with
      | nil => exact ⟨f, [], rfl⟩
      | cons m2 mid'' => exact ⟨m2, mid'' ++ [f], rfl⟩
    have hsec' : splitIntoSections (normalizeMessage message) =
        t :: m1 :: s2 :: rest2 := by
      rw [hsec]
      simp [h2]
    rw [parse_sections_big message t m1 s2 rest2 hsec']
    have hms : m1 :: s2 :: rest2 = (m1 :: mid') ++ [f] := by simp [h2]
    have hdrop : (m1 :: s2 :: rest2).dropLast = m1 :: mid' := by
      rw [hms, List.dropLast_concat]
    have hlast : (t :: m1 :: s2 :: rest2).getLastD [] = f := by
      rw [hms, ← List.cons_append, List.getLastD_concat]
    rw [hdrop, hlast]

/-- Witness for C2 on a concrete three-section message. -/
theorem c2_section_count_policy_witness :
    ParseCommitMessage ['t', '\n', '\n', 'b', '\n', '\n', 'f'] =
      ⟨normalizeMessage ['t', '\n', '\n', 'b', '\n', '\n', 'f'], ['t'],
        strJoin ['\n', '\n'] [['b']], ['f']⟩ :=
  (c2_section_count_policy ['t', '\n', '\n', 'b', '\n', '\n', 'f']).2.2.2.2
    ['t'] [['b']] ['f'] (by decide) (by decide)

/-- C7 counterexample: the message consisting of a single space normalizes
to a non-empty raw text, yet the parsed title is empty, refuting the
claimed biconditional between a set title and a non-empty normalized raw
text. -/
theorem c7_counterexample_blank_message :
    (ParseCommitMessage [' ']).raw ≠ [] ∧
    (ParseCommitMessage [' ']).title = [] := by
  decide

/-- C7 amended: title is non-empty iff the normalized text has at least one
blank-line-delimited section (rather than iff the normalized raw text is
non-empty, which fails on all-whitespace messages); footer is non-empty iff
there are at least 2 sections; body is non-empty iff there are at least 3
sections, in which case it equals the middle sections joined by a blank
line. -/
theorem c7_field_presence_invariants (message : Str) :
    ((ParseCommitMessage message).title ≠ [] ↔
      splitIntoSections (normalizeMessage message) ≠ []) ∧
    ((ParseCommitMessage message).footer ≠ [] ↔
      2 ≤ (splitIntoSections (normalizeMessage message)).length) ∧
    ((ParseCommitMessage message).body ≠ [] ↔
      3 ≤ (splitIntoSections (normalizeMessage message)).length) ∧
    (3 ≤ (splitIntoSections (normalizeMessage message)).length →
      (ParseCommitMessage message).body =
        strJoin ['\n', '\n']
          (((splitIntoSections (normalizeMessage message)).drop 1).dropLast)) := by
  rcases hsec : splitIntoSections (normalizeMessage message) with
    - | ⟨t, - | ⟨f, - | ⟨g, rest⟩⟩⟩
  · rw [parse_sections_nil message hsec]
    simp
  · rw [parse_sections_one message t hsec]
    have ht : t ≠ [] := splitIntoSections_ne_nil _ t (by rw [hsec]; simp)
    simp [ht]
  · rw [parse_sections_two message t f hsec]
    have ht : t ≠ [] := splitIntoSections_ne_nil _ t (by rw [hsec]; simp)
    have hf : f ≠ [] := splitIntoSections_ne_nil _ f (by rw [hsec]; simp)
    simp [ht, hf]
  · rw [parse_sections_big message t f g rest hsec]
    have ht : t ≠ [] := splitIntoSections_ne_nil _ t (by rw [hsec]; simp)
    have hf : f ≠ [] := splitIntoSections_ne_nil _ f (by rw [hsec]; simp)
    have hlast : (t :: f :: g :: rest).getLastD [] ≠ [] :=
      splitIntoSections_ne_nil _ _ (by rw [hsec]; exact getLastD_mem _ _ (by simp))
    have hbody : strJoin ['\n', '\n'] ((f :: g :: rest).dropLast) ≠ [] := by
      have : (f :: g :: rest).dropLast = f :: (g :: rest).dropLast := by
        simp
      rw [this]
      exact strJoin_ne_nil _ _ _ hf
    refine ⟨by simpa using ht, by simpa using hlast, by simpa using hbody, ?_⟩
    intro _
    rfl

/-- Witness for C7 on a concrete three-section message. -/
theorem c7_field_presence_invariants_witness :
    ((ParseCommitMessage ['t', '\n', '\n', 'b', '\n', '\n', 'f']).body ≠ [] ↔
      3 ≤ (splitIntoSections
        (normalizeMessage ['t', '\n', '\n', 'b', '\n', '\n', 'f'])).length) ∧
    (ParseCommitMessage ['t', '\n', '\n', 'b', '\n', '\n', 'f']).body =
      strJoin ['\n', '\n']
        (((splitIntoSections
          (normalizeMessage ['t', '\n', '\n', 'b', '\n', '\n', 'f'])).drop
            1).dropLast) :=
  ⟨(c7_field_presence_invariants ['t', '\n', '\n', 'b', '\n', '\n', 'f']).2.2.1,
    (c7_field_presence_invariants ['t', '\n', '\n', 'b', '\n', '\n', 'f']).2.2.2
      (by decide)⟩

theorem violatesRule_iff (r : Rule) (message : ParsedCommitMessage) :
    violatesRule r message = true ↔
      ((r.type = ruleTypeDeny ∧
          r.regex (getTextForScope r.scope message) = true) ∨
        (r.type = ruleTypeRequire ∧
          r.regex (getTextForScope r.scope message) = false)) := by
  have hne : ruleTypeDeny ≠ ruleTypeRequire := by decide
  have hne' : ruleTypeRequire ≠ ruleTypeDeny := by decide
  by_cases hd : r.type = ruleTypeDeny
  · cases hm : r.regex (getTextForScope r.scope message) <;>
      simp [violatesRule, hd, hm, hne, hne']
  · by_cases hr : r.type = ruleTypeRequire
    · cases hm : r.regex (getTextForScope r.scope message) <;>
        simp [violatesRule, hd, hr, hm, hne, hne']
    · simp [violatesRule, hd, hr]

/-- C3: EvaluateRules returns exactly one violation per violated rule, in
rule declaration order, with the Matched flag recording whether the
pattern matched; a deny rule is violated exactly when its pattern matches
the scope text and a require rule exactly when it does not, and rules that
are not violated contribute nothing. -/
theorem c3_evaluate_rules_exactly_violated (rules : List Rule)
    (message : ParsedCommitMessage) :
    EvaluateRules rules message =
      (rules.filter (fun r => violatesRule r message)).map
        (fun r => ⟨r, r.regex (getTextForScope r.scope message)⟩) := by
  induction rules with
  | nil => rfl
  | cons r rs ih =>
    by_cases hc : (r.type = ruleTypeDeny ∧
        r.regex (getTextForScope r.scope message) = true) ∨
      (r.type = ruleTypeRequire ∧
        r.regex (getTextForScope r.scope message) = false)
    · have hv : violatesRule r message = true := (violatesRule_iff r message).mpr hc
      have hfil : List.filter (fun r => violatesRule r message) (r :: rs) =
          r :: List.filter (fun r => violatesRule r message) rs :=
        List.filter_cons_of_pos (by simpa using hv)
      simp only [EvaluateRules, if_pos hc, ih, hfil, List.map_cons]
    · have hv : ¬ violatesRule r message = true := fun h =>
        hc ((violatesRule_iff r message).mp h)
      have hfil : List.filter (fun r => violatesRule r message) (r :: rs) =
          List.filter (fun r => violatesRule r message) rs :=
        List.filter_cons_of_neg (by simpa using hv)
      simp only [EvaluateRules, if_neg hc, ih, hfil]

/-- C9 counterexample: a deny rule with an unknown scope whose pattern
(the Go regexp a*) matches the empty string yields a violation on every
message, refuting the claim that such a deny rule never yields one. -/
theorem c9_counterexample_empty_matching_deny :
    weirdScopeRule.scope ∉ [scopeTitle, scopeBody, scopeFooter, scopeMessage] ∧
    EvaluateRules [weirdScopeRule] (ParseCommitMessage []) ≠ [] := by
  refine ⟨by decide, ?_⟩
  have h : EvaluateRules [weirdScopeRule] (ParseCommitMessage []) =
      [⟨weirdScopeRule, true⟩] := rfl
  rw [h]
  simp

/-- C9 amended: a rule with a scope other than title, body, footer or
message is evaluated against the empty string; such a deny rule yields a
violation for every message exactly when its pattern matches the empty
string, and such a require rule yields a violation for every message
exactly when its pattern does not match the empty string. -/
theorem c9_unknown_scope_empty_text (r : Rule) (m : ParsedCommitMessage)
    (hscope : r.scope ∉ [scopeTitle, scopeBody, scopeFooter, scopeMessage]) :
    getTextForScope r.scope m = [] ∧
    (r.type = ruleTypeDeny →
      EvaluateRules [r] m =
        if r.regex [] = true then [⟨r, true⟩] else []) ∧
    (r.type = ruleTypeRequire →
      EvaluateRules [r] m =
        if r.regex [] = false then [⟨r, false⟩] else []) := by
  have hne : ruleTypeDeny ≠ ruleTypeRequire := by decide
  simp only [List.mem_cons, List.not_mem_nil, or_false, not_or] at hscope
  obtain ⟨h1, h2, h3, h4⟩ := hscope
  have htext : getTextForScope r.scope m = [] := by
    simp [getTextForScope, h1, h2, h3, h4]
  refine ⟨htext, ?_, ?_⟩
  · intro hty
    simp only [EvaluateRules, htext]
    cases hm : r.regex [] <;> simp [hty, hm, hne, Ne.symm hne]
  · intro hty
    simp only [EvaluateRules, htext]
    cases hm : r.regex [] <;> simp [hty, hm, hne, Ne.symm hne]

/-- Witness for C9 amended at the concrete unknown-scope deny rule. -/
theorem c9_unknown_scope_empty_text_witness :
    getTextForScope weirdScopeRule.scope (ParseCommitMessage ['h', 'i']) = [] ∧
    EvaluateRules [weirdScopeRule] (ParseCommitMessage ['h', 'i']) =
      (if weirdScopeRule.regex [] = true then [⟨weirdScopeRule, true⟩]
        else []) :=
  have h := c9_unknown_scope_empty_text weirdScopeRule
    (ParseCommitMessage ['h', 'i']) (by decide)
  ⟨h.1, h.2.1 rfl⟩

/-- C10: shouldSkipAuthor silently skips every pattern that does not
compile, and returns false for every author when no pattern in the list
compiles. -/
theorem c10_invalid_skip_patterns_ignored (compile : RegexCompiler)
    (name email : Str) :
    (∀ pat pats, compile pat = none →
      shouldSkipAuthor compile name email (pat :: pats) =
        shouldSkipAuthor compile name email pats) ∧
    (∀ pats, (∀ p ∈ pats, compile p = none) →
      shouldSkipAuthor compile name email pats = false) := by
  constructor
  · intro pat pats hnone
    simp [shouldSkipAuthor, hnone]
  · intro pats
    induction pats with
    | nil => intro _; rfl
    | cons p ps ih =>
      intro hall
      have hp : compile p = none := hall p (by simp)
      have hstep : shouldSkipAuthor compile name email (p :: ps) =
          shouldSkipAuthor compile name email ps := by
        simp [shouldSkipAuthor, hp]
      rw [hstep]
      exact ih (fun q hq => hall q (by simp [hq]))

/-- Witness for C10: with an environment in which nothing compiles, the
author is never skipped. -/
theorem c10_invalid_skip_patterns_ignored_witness :
    shouldSkipAuthor compileNone ['u'] ['u'] [['(']] = false :=
  (c10_invalid_skip_patterns_ignored compileNone ['u'] ['u']).2 [['(']]
    (fun _ _ => rfl)

theorem applySkipMergeDefault_true (s : Settings) :
    (applySkipMergeDefault s).skipMergeCommits = true := by
  cases h : s.skipMergeCommits <;> simp [applySkipMergeDefault, h]

theorem validateCommits_filter_merges (compile : RegexCompiler)
    (config : Config) (hs : config.settings.skipMergeCommits = true) :
    ∀ (commits : List Commit) (refName : Str),
      validateCommits compile config commits refName =
        validateCommits compile config
          (commits.filter (fun c => decide (c.parents.length ≤ 1))) refName := by
  intro commits
  induction commits with
  | nil => intro refName; rfl
  | cons c cs ih =>
    intro refName
    by_cases hm : c.parents.length > 1
    · have h1 : validateCommits compile config (c :: cs) refName =
          validateCommits compile config cs refName := by
        simp only [validateCommits]
        rw [if_pos ⟨hs, hm⟩]
      have h2 : (c :: cs).filter (fun c => decide (c.parents.length ≤ 1)) =
          cs.filter (fun c => decide (c.parents.length ≤ 1)) :=
        List.filter_cons_of_neg (by simpa using (by omega : ¬ c.parents.length ≤ 1))
      rw [h1, h2, ih]
    · have hle : c.parents.length ≤ 1 := by omega
      have h2 : (c :: cs).filter (fun c => decide (c.parents.length ≤ 1)) =
          c :: cs.filter (fun c => decide (c.parents.length ≤ 1)) :=
        List.filter_cons_of_pos (by simpa using hle)
      rw [h2]
      have hcond : ¬ (config.settings.skipMergeCommits = true ∧
          c.parents.length > 1) := fun hc => hm hc.2
      simp only [validateCommits]
      rw [if_neg hcond, if_neg hcond]
      by_cases ha : shouldSkipAuthor compile c.authorName c.authorEmail
          config.settings.skipAuthors = true
      · rw [if_pos ha, if_pos ha, ih]
      · rw [if_neg ha, if_neg ha]
        by_cases hv :
            (EvaluateRules config.rules (ParseCommitMessage c.message)).length > 0
        · rw [if_pos hv, if_pos hv]
        · rw [if_neg hv, if_neg hv, ih]

theorem validateCommits_some_merge (compile : RegexCompiler)
    (config : Config) (hs : config.settings.skipMergeCommits = true) :
    ∀ (commits : List Commit) (refName : Str) (f : ValidationFailure),
      validateCommits compile config commits refName = some f →
      f.commit.parents.length ≤ 1 := by
  intro commits
  induction commits with
  | nil =>
    intro refName f h
    simp [validateCommits] at h
  | cons c cs ih =>
    intro refName f h
    simp only [validateCommits] at h
    by_cases hm : c.parents.length > 1
    · rw [if_pos ⟨hs, hm⟩] at h
      exact ih refName f h
    · rw [if_neg (fun hc => hm hc.2)] at h
      by_cases ha : shouldSkipAuthor compile c.authorName c.authorEmail
          config.settings.skipAuthors = true
      · rw [if_pos ha] at h
        exact ih refName f h
      · rw [if_neg ha] at h
        by_cases hv :
            (EvaluateRules config.rules (ParseCommitMessage c.message)).length > 0
        · rw [if_pos hv] at h
          cases h
          simpa using (by omega : c.parents.length ≤ 1)
        · rw [if_neg hv] at h
          exact ih refName f h

/-- C4: after Run forces the skip_merge_commits default (the setting is
set to true whenever it is false, so a configured false is overridden),
every commit with more than one parent is skipped entirely by
validateCommits: the scan equals the scan of the merge-free sublist, and
the reported offending commit can never be a merge commit. -/
theorem c4_merge_commits_always_skipped (compile : RegexCompiler)
    (rules : List Rule) (s : Settings) (commits : List Commit)
    (refName : Str) :
    (applySkipMergeDefault s).skipMergeCommits = true ∧
    validateCommits compile ⟨rules, applySkipMergeDefault s⟩ commits refName =
      validateCommits compile ⟨rules, applySkipMergeDefault s⟩
        (commits.filter (fun c => decide (c.parents.length ≤ 1))) refName ∧
    (∀ f,
      validateCommits compile ⟨rules, applySkipMergeDefault s⟩ commits
        refName = some f →
      f.commit.parents.length ≤ 1) :=
  ⟨applySkipMergeDefault_true s,
    validateCommits_filter_merges compile ⟨rules, applySkipMergeDefault s⟩
      (applySkipMergeDefault_true s) commits refName,
    fun f =>
      validateCommits_some_merge compile ⟨rules, applySkipMergeDefault s⟩
        (applySkipMergeDefault_true s) commits refName f⟩

/-- Witness for C4: a merge commit whose message violates the demo rule is
still skipped, even though skip_merge_commits was configured false. -/
theorem c4_merge_commits_always_skipped_witness :
    (applySkipMergeDefault demoSettings).skipMergeCommits = true ∧
    validateCommits compileNone ⟨[demoDenyRule], applySkipMergeDefault demoSettings⟩
      [demoMerge] ['x'] =
      validateCommits compileNone ⟨[demoDenyRule], applySkipMergeDefault demoSettings⟩
        ([demoMerge].filter (fun c => decide (c.parents.length ≤ 1))) ['x'] :=
  ⟨(c4_merge_commits_always_skipped compileNone [demoDenyRule] demoSettings
      [demoMerge] ['x']).1,
    (c4_merge_commits_always_skipped compileNone [demoDenyRule] demoSettings
      [demoMerge] ['x']).2.1⟩

/-- C8: parseArgs satisfies the CLI contract: no flags give empty base and
head (stdin fallback), head only gives the configured main ref as base,
base only is an error, and both are returned unchanged. -/
theorem c8_parse_args_contract (config : Config) (base head : Str) :
    (base = [] → head = [] → parseArgs config base head = Except.ok ([], [])) ∧
    (base = [] → head ≠ [] →
      parseArgs config base head =
        Except.ok (config.settings.mainRef, head)) ∧
    (base ≠ [] → head = [] →
      parseArgs config base head = Except.error ArgsError.headRefRequired) ∧
    (base ≠ [] → head ≠ [] →
      parseArgs config base head = Except.ok (base, head)) := by
  refine ⟨?_, ?_, ?_, ?_⟩
  · intro hb hh
    simp [parseArgs, hb, hh]
  · intro hb hh
    simp [parseArgs, hb, hh]
  · intro hb hh
    simp [parseArgs, hb, hh]
  · intro hb hh
    simp [parseArgs, hb, hh]

/-- Witness for C8: head-ref alone defaults the base to the configured
main ref. -/
theorem c8_parse_args_contract_witness :
    parseArgs demoConfig [] ['h'] =
      Except.ok (demoConfig.settings.mainRef, ['h']) :=
  (c8_parse_args_contract demoConfig [] ['h']).2.1 rfl (by decide)

theorem lookupC_some_mem {repo : List Commit} {h : Str} {c : Commit}
    (hl : lookupC repo h = some c) : c ∈ repo ∧ c.hash = h := by
  unfold lookupC at hl
  have h1 := List.find?_some hl
  have h2 := List.mem_of_find?_eq_some hl
  exact ⟨h2, by simpa using h1⟩

theorem lookupC_isSome {repo : List Commit} {h : Str}
    (hm : h ∈ hashesOf repo) : ∃ c, lookupC repo h = some c := by
  unfold hashesOf at hm
  obtain ⟨c, hc, rfl⟩ := List.mem_map.mp hm
  cases hf : lookupC repo c.hash with
  | some d => exact ⟨d, rfl⟩
  | none =>
    exfalso
    unfold lookupC at hf
    have := List.find?_eq_none.mp hf c hc
    simp at this

theorem lookupC_self {repo : List Commit} (hnd : nodupHashes repo)
    {c : Commit} (hc : c ∈ repo) : lookupC repo c.hash = some c := by
  obtain ⟨d, hd⟩ := @lookupC_isSome repo c.hash
    (by unfold hashesOf; exact List.mem_map_of_mem _ hc)
  obtain ⟨hdmem, hdh⟩ := lookupC_some_mem hd
  have : d = c := List.inj_on_of_nodup_map hnd hdmem hc hdh
  rw [hd, this]

theorem walk_zero (repo : List Commit) (wl : List Str) (vis : List Commit) :
    walk repo 0 wl vis = vis := by
  cases wl <;> rfl

theorem walk_succ_nil (repo : List Commit) (fuel : Nat) (vis : List Commit) :
    walk repo (fuel + 1) [] vis = vis := rfl

theorem walk_succ_visited {repo : List Commit} {fuel : Nat} {h : Str}
    {rest : List Str} {vis : List Commit} (hv : h ∈ vis.map Commit.hash) :
    walk repo (fuel + 1) (h :: rest) vis = walk repo fuel rest vis := by
  simp [walk, hv]

theorem walk_succ_none {repo : List Commit} {fuel : Nat} {h : Str}
    {rest : List Str} {vis : List Commit} (hv : h ∉ vis.map Commit.hash)
    (hlk : lookupC repo h = none) :
    walk repo (fuel + 1) (h :: rest) vis = walk repo fuel rest vis := by
  simp [walk, hv, hlk]

theorem walk_succ_some {repo : List Commit} {fuel : Nat} {h : Str}
    {rest : List Str} {vis : List Commit} {c : Commit}
    (hv : h ∉ vis.map Commit.hash) (hlk : lookupC repo h = some c) :
    walk repo (fuel + 1) (h :: rest) vis =
      walk repo fuel (rest ++ c.parents) (vis ++ [c]) := by
  simp [walk, hv, hlk]

theorem sum_filter_ne (f : Commit → Nat) :
    ∀ (l : List Commit), (l.map Commit.hash).Nodup → ∀ c ∈ l,
      (l.map f).sum =
        f c + ((l.filter (fun d => decide (d.hash ≠ c.hash))).map f).sum := by
  intro l
  induction l with
  | nil => intro _ c hc; simp at hc
  | cons d l' ih =>
    intro hnd c hc
    have hnd' : d.hash ∉ l'.map Commit.hash ∧ (l'.map Commit.hash).Nodup := by
      rw [List.map_cons] at hnd
      exact List.nodup_cons.mp hnd
    rcases List.mem_cons.mp hc with rfl | hc'
    · have hdrop : (c :: l').filter (fun d => decide (d.hash ≠ c.hash)) =
          l'.filter (fun d => decide (d.hash ≠ c.hash)) :=
        List.filter_cons_of_neg (by simp)
      have hkeep : l'.filter (fun d => decide (d.hash ≠ c.hash)) = l' := by
        apply List.filter_eq_self.mpr
        intro x hx
        simp only [decide_eq_true_eq]
        intro hxc
        exact hnd'.1 (hxc ▸ List.mem_map_of_mem Commit.hash hx)
      rw [hdrop, hkeep]
      simp
    · have hdc : d.hash ≠ c.hash := by
        intro he
        exact hnd'.1 (he ▸ List.mem_map_of_mem Commit.hash hc')
      have hkeep : (d :: l').filter (fun e => decide (e.hash ≠ c.hash)) =
          d :: l'.filter (fun e => decide (e.hash ≠ c.hash)) :=
        List.filter_cons_of_pos (by simpa using hdc)
      rw [hkeep]
      have := ih hnd'.2 c hc'
      simp only [List.map_cons, List.sum_cons]
      omega

theorem pendingSum_step (repo : List Commit) (hnd : nodupHashes repo)
    {c : Commit} {vis : List Commit} (hc : c ∈ repo)
    (hnot : c.hash ∉ vis.map Commit.hash) :
    pendingSum repo vis =
      c.parents.length + 1 + pendingSum repo (vis ++ [c]) := by
  unfold pendingSum
  have hnd' : ((repo.filter
      (fun d => decide (d.hash ∉ vis.map Commit.hash))).map Commit.hash).Nodup :=
    List.Nodup.sublist ((List.filter_sublist repo).map Commit.hash) hnd
  have hcf : c ∈ repo.filter (fun d => decide (d.hash ∉ vis.map Commit.hash)) :=
    List.mem_filter.mpr ⟨hc, by simpa using hnot⟩
  have hsum := sum_filter_ne (fun d => d.parents.length + 1) _ hnd' c hcf
  have hff : repo.filter
      (fun d => decide (d.hash ∉ (vis ++ [c]).map Commit.hash)) =
      (repo.filter (fun d => decide (d.hash ∉ vis.map Commit.hash))).filter
        (fun d => decide (d.hash ≠ c.hash)) := by
    rw [List.filter_filter]
    apply List.filter_congr
    intro d _
    by_cases h1 : d.hash = c.hash <;> by_cases h2 : d.hash ∈ vis.map Commit.hash <;>
      simp [h1, h2]
  rw [hff, hsum]

theorem walk_spec (repo : List Commit) (hnd : nodupHashes repo)
    (hcl : closedRepo repo) (P : Str → Prop)
    (hP : ∀ h c p, P h → lookupC repo h = some c → p ∈ c.parents → P p) :
    ∀ (fuel : Nat) (wl : List Str) (vis : List Commit),
      walkMeasure repo wl vis ≤ fuel →
      (∀ h ∈ wl, h ∈ hashesOf repo) →
      (∀ h ∈ wl, P h) →
      (∀ c ∈ vis, lookupC repo c.hash = some c) →
      (vis.map Commit.hash).Nodup →
      (∀ c ∈ vis, P c.hash) →
      (∀ c ∈ vis, ∀ p ∈ c.parents, p ∈ vis.map Commit.hash ∨ p ∈ wl) →
      (∀ c ∈ vis, c ∈ walk repo fuel wl vis) ∧
      (∀ h ∈ wl, h ∈ (walk repo fuel wl vis).map Commit.hash) ∧
      (∀ c ∈ walk repo fuel wl vis, lookupC repo c.hash = some c) ∧
      ((walk repo fuel wl vis).map Commit.hash).Nodup ∧
      (∀ c ∈ walk repo fuel wl vis, P c.hash) ∧
      (∀ c ∈ walk repo fuel wl vis, ∀ p ∈ c.parents,
        p ∈ (walk repo fuel wl vis).map Commit.hash) := by
  intro fuel
  induction fuel with
  | zero =>
    intro wl vis hmu hwlH hwlP hgen hvnd hvP hpar
    have hwl : wl = [] := by
      apply List.length_eq_zero.mp
      unfold walkMeasure at hmu
      omega
    subst hwl
    rw [walk_zero]
    refine ⟨fun c hc => hc, by simp, hgen, hvnd, hvP, ?_⟩
    intro c hc p hp
    rcases hpar c hc p hp with h | h
    · exact h
    · simp at h
  | succ fuel ih =>
    intro wl vis hmu hwlH hwlP hgen hvnd hvP hpar
    cases wl with
    | nil =>
      rw [walk_succ_nil]
      refine ⟨fun c hc => hc, by simp, hgen, hvnd, hvP, ?_⟩
      intro c hc p hp
      rcases hpar c hc p hp with h | h
      · exact h
      · simp at h
    | cons h rest =>
      by_cases hv : h ∈ vis.map Commit.hash
      · rw [walk_succ_visited hv]
        have hmu' : walkMeasure repo rest vis ≤ fuel := by
          unfold walkMeasure at hmu ⊢
          simp only [List.length_cons] at hmu
          omega
        have hres := ih rest vis hmu'
          (fun x hx => hwlH x (List.mem_cons_of_mem h hx))
          (fun x hx => hwlP x (List.mem_cons_of_mem h hx))
          hgen hvnd hvP
          (by
            intro c hc p hp
            rcases hpar c hc p hp with h1 | h1
            · exact Or.inl h1
            · rcases List.mem_cons.mp h1 with rfl | h2
              · exact Or.inl hv
              · exact Or.inr h2)
        refine ⟨hres.1, ?_, hres.2.2.1, hres.2.2.2.1, hres.2.2.2.2.1,
          hres.2.2.2.2.2⟩
        intro x hx
        rcases List.mem_cons.mp hx with rfl | hx'
        · obtain ⟨c, hc, hch⟩ := List.mem_map.mp hv
          exact hch ▸ List.mem_map_of_mem Commit.hash (hres.1 c hc)
        · exact hres.2.1 x hx'
      · cases hlk : lookupC repo h with
        | none =>
          exfalso
          obtain ⟨c, hc⟩ := lookupC_isSome (hwlH h (List.mem_cons_self h rest))
          rw [hlk] at hc
          cases hc
        | some c =>
          rw [walk_succ_some hv hlk]
          obtain ⟨hcmem, hch⟩ := lookupC_some_mem hlk
          have hv' : c.hash ∉ vis.map Commit.hash := by rw [hch]; exact hv
          have hmu' : walkMeasure repo (rest ++ c.parents) (vis ++ [c]) ≤ fuel := by
            have hstep := pendingSum_step repo hnd hcmem hv'
            unfold walkMeasure at hmu ⊢
            simp only [List.length_cons] at hmu
            simp only [List.length_append]
            omega
          have hgen' : ∀ d ∈ vis ++ [c], lookupC repo d.hash = some d := by
            intro d hd
            rcases List.mem_append.mp hd with hd | hd
            · exact hgen d hd
            · rw [List.mem_singleton.mp hd, hch]
              exact hlk
          have hvnd' : ((vis ++ [c]).map Commit.hash).Nodup := by
            rw [List.map_append]
            simp only [List.map_cons, List.map_nil]
            rw [List.nodup_append]
            exact ⟨hvnd, List.nodup_singleton _,
              fun x hx hx' => hv' ((List.mem_singleton.mp hx') ▸ hx)⟩
          have hres := ih (rest ++ c.parents) (vis ++ [c]) hmu'
            (by
              intro x hx
              rcases List.mem_append.mp hx with hx | hx
              · exact hwlH x (List.mem_cons_of_mem h hx)
              · exact hcl c hcmem x hx)
            (by
              intro x hx
              rcases List.mem_append.mp hx with hx | hx
              · exact hwlP x (List.mem_cons_of_mem h hx)
              · exact hP h c x (hwlP h (List.mem_cons_self h rest)) hlk hx)
            hgen' hvnd'
            (by
              intro d hd
              rcases List.mem_append.mp hd with hd | hd
              · exact hvP d hd
              · rw [List.mem_singleton.mp hd, hch]
                exact hwlP h (List.mem_cons_self h rest))
            (by
              intro d hd p hp
              rcases List.mem_append.mp hd with hd | hd
              · rcases hpar d hd p hp with h1 | h1
                · exact Or.inl (by rw [List.map_append]; exact List.mem_append_left _ h1)
                · rcases List.mem_cons.mp h1 with rfl | h2
                  · refine Or.inl ?_
                    rw [List.map_append]
                    refine List.mem_append_right _ ?_
                    simp [hch]
                  · exact Or.inr (List.mem_append_left _ h2)
              · rw [List.mem_singleton.mp hd] at hp
                exact Or.inr (List.mem_append_right _ hp))
          refine ⟨?_, ?_, hres.2.2.1, hres.2.2.2.1, hres.2.2.2.2.1,
            hres.2.2.2.2.2⟩
          · intro d hd
            exact hres.1 d (List.mem_append_left _ hd)
          · intro x hx
            rcases List.mem_cons.mp hx with rfl | hx'
            · have hcw : c ∈ walk repo fuel (rest ++ c.parents) (vis ++ [c]) :=
                hres.1 c (List.mem_append_right _ (List.mem_singleton_self c))
              exact hch ▸ List.mem_map_of_mem Commit.hash hcw
            · exact hres.2.1 x (List.mem_append_left _ hx')

theorem Reach.trans_parent {repo : List Commit} {a b : Str}
    (hr : Reach repo a b) :
    ∀ {c : Commit} {p : Str}, lookupC repo b = some c → p ∈ c.parents →
      Reach repo a p := by
  induction hr with
  | refl x =>
    intro c p hc hp
    exact Reach.step hc hp (Reach.refl p)
  | step hc' hp' hr' ih =>
    intro c p hc hp
    exact Reach.step hc' hp' (ih hc hp)

theorem reach_mem_closed (repo : List Commit) (vis : List Commit)
    (hgen : ∀ c ∈ vis, lookupC repo c.hash = some c)
    (hclosed : ∀ c ∈ vis, ∀ p ∈ c.parents, p ∈ vis.map Commit.hash) :
    ∀ a b, Reach repo a b → a ∈ vis.map Commit.hash →
      b ∈ vis.map Commit.hash := by
  intro a b hr
  induction hr with
  | refl x => exact id
  | step hc hp hr ih =>
    intro ha
    obtain ⟨d, hd, hdh⟩ := List.mem_map.mp ha
    have hld := hgen d hd
    rw [hdh] at hld
    have hdc := Option.some.inj (hld.symm.trans hc)
    have hpmem := hclosed d hd _ (hdc.symm ▸ hp)
    exact ih hpmem

theorem ancestors_spec (repo : List Commit) (hnd : nodupHashes repo)
    (hcl : closedRepo repo) (s : Str) (hs : s ∈ hashesOf repo) :
    (∀ c ∈ ancestors repo s, lookupC repo c.hash = some c) ∧
    ((ancestors repo s).map Commit.hash).Nodup ∧
    (∀ h, h ∈ (ancestors repo s).map Commit.hash ↔ Reach repo s h) := by
  have hmu : walkMeasure repo [s] [] ≤ walkFuel repo := by
    unfold walkMeasure walkFuel pendingSum
    have hfil : repo.filter
        (fun c => decide (c.hash ∉ ([] : List Commit).map Commit.hash)) =
        repo := by
      apply List.filter_eq_self.mpr
      intro a _
      simp
    rw [hfil]
    simp
  have hres := walk_spec repo hnd hcl (Reach repo s)
    (fun h c p hPh hc hp => hPh.trans_parent hc hp)
    (walkFuel repo) [s] [] hmu
    (by
      intro x hx
      rw [List.mem_singleton.mp hx]
      exact hs)
    (by
      intro x hx
      rw [List.mem_singleton.mp hx]
      exact Reach.refl s)
    (by simp) (by simp) (by simp) (by simp)
  obtain ⟨h1, h2, h3, h4, h5, h6⟩ := hres
  refine ⟨h3, h4, ?_⟩
  intro h
  constructor
  · intro hh
    obtain ⟨c, hc, rfl⟩ := List.mem_map.mp hh
    exact h5 c hc
  · intro hr
    have hsmem : s ∈ (ancestors repo s).map Commit.hash :=
      h2 s (List.mem_singleton_self s)
    exact reach_mem_closed repo (ancestors repo s) h3 h6 s h hr hsmem

theorem getCommitsInRange_spec (repo : List Commit) (hnd : nodupHashes repo)
    (hcl : closedRepo repo) (oldC newC : Str) (oc nc : Commit)
    (ho : lookupC repo oldC = some oc) (hn : lookupC repo newC = some nc) :
    getCommitsInRange repo oldC newC =
      Except.ok ((ancestors repo newC).filter
        (fun c => decide (c.hash ∉ (ancestors repo oldC).map Commit.hash))) ∧
    (((ancestors repo newC).filter
        (fun c => decide (c.hash ∉ (ancestors repo oldC).map
          Commit.hash))).map Commit.hash).Nodup ∧
    (∀ h,
      (∃ c ∈ (ancestors repo newC).filter
          (fun c => decide (c.hash ∉ (ancestors repo oldC).map Commit.hash)),
        c.hash = h) ↔
      (Reach repo newC h ∧ ¬ Reach repo oldC h)) := by
  have hsOld : oldC ∈ hashesOf repo := by
    obtain ⟨hm, hh⟩ := lookupC_some_mem ho
    rw [← hh]
    exact List.mem_map_of_mem _ hm
  have hsNew : newC ∈ hashesOf repo := by
    obtain ⟨hm, hh⟩ := lookupC_some_mem hn
    rw [← hh]
    exact List.mem_map_of_mem _ hm
  obtain ⟨go1, go2, go3⟩ := ancestors_spec repo hnd hcl oldC hsOld
  obtain ⟨gn1, gn2, gn3⟩ := ancestors_spec repo hnd hcl newC hsNew
  refine ⟨by simp [getCommitsInRange, hn, ho], ?_, ?_⟩
  · exact List.Nodup.sublist
      ((List.filter_sublist (ancestors repo newC)).map Commit.hash) gn2
  · intro h
    constructor
    · rintro ⟨c, hc, rfl⟩
      obtain ⟨hcmem, hcpred⟩ := List.mem_filter.mp hc
      refine ⟨(gn3 c.hash).mp (List.mem_map_of_mem _ hcmem), ?_⟩
      intro hro
      have hmem : c.hash ∈ (ancestors repo oldC).map Commit.hash :=
        (go3 c.hash).mpr hro
      simp only [decide_eq_true_eq] at hcpred
      exact hcpred hmem
    · rintro ⟨hrn, hro⟩
      obtain ⟨c, hc, rfl⟩ := List.mem_map.mp ((gn3 h).mpr hrn)
      refine ⟨c, List.mem_filter.mpr ⟨hc, ?_⟩, rfl⟩
      simp only [decide_eq_true_eq]
      intro hmem
      exact hro ((go3 c.hash).mp hmem)

/-- C1: for resolvable endpoints in a well-formed store, getCommitsInRange
returns a list containing no commit reachable from the base endpoint; its
members are exactly the commits reachable from the head endpoint but not
from the base, also when the endpoints have diverged; and the range from
any resolvable endpoint to itself is empty. -/
theorem c1_range_excludes_base_ancestors (repo : List Commit)
    (oldC newC : Str) (oc nc : Commit) (hnd : nodupHashes repo)
    (hcl : closedRepo repo) (ho : lookupC repo oldC = some oc)
    (hn : lookupC repo newC = some nc) :
    (∃ cs, getCommitsInRange repo oldC newC = Except.ok cs ∧
      (∀ c ∈ cs, ¬ Reach repo oldC c.hash) ∧
      (∀ h, (∃ c ∈ cs, c.hash = h) ↔
        (Reach repo newC h ∧ ¬ Reach repo oldC h))) ∧
    (∀ (x : Str) (xc : Commit), lookupC repo x = some xc →
      getCommitsInRange repo x x = Except.ok []) := by
  constructor
  · obtain ⟨he, hnodup, hiff⟩ :=
      getCommitsInRange_spec repo hnd hcl oldC newC oc nc ho hn
    exact ⟨_, he, fun c hc => ((hiff c.hash).mp ⟨c, hc, rfl⟩).2, hiff⟩
  · intro x xc hx
    have hfil : (ancestors repo x).filter
        (fun c => decide (c.hash ∉ (ancestors repo x).map Commit.hash)) =
        [] := by
      apply List.filter_eq_nil_iff.mpr
      intro c hc
      simp only [decide_eq_true_eq, Decidable.not_not]
      exact List.mem_map_of_mem _ hc
    simp only [getCommitsInRange, hx, hfil]

/-- Witness for C1 on a three-commit store with diverged branches b and c
above the root a: the range from b to c is exactly the commit c. -/
theorem c1_range_excludes_base_ancestors_witness :
    nodupHashes demoStore ∧ closedRepo demoStore ∧
    getCommitsInRange demoStore ['b'] ['c'] = Except.ok [demoC] ∧
    ((∃ cs, getCommitsInRange demoStore ['b'] ['c'] = Except.ok cs ∧
      (∀ c ∈ cs, ¬ Reach demoStore ['b'] c.hash) ∧
      (∀ h, (∃ c ∈ cs, c.hash = h) ↔
        (Reach demoStore ['c'] h ∧ ¬ Reach demoStore ['b'] h))) ∧
    (∀ (x : Str) (xc : Commit), lookupC demoStore x = some xc →
      getCommitsInRange demoStore x x = Except.ok [])) :=
  ⟨by unfold nodupHashes hashesOf; decide,
    by unfold closedRepo hashesOf; decide, by rfl,
    c1_range_excludes_base_ancestors demoStore ['b'] ['c'] demoB demoC
      (by unfold nodupHashes hashesOf; decide)
      (by unfold closedRepo hashesOf; decide) (by rfl) (by rfl)⟩

theorem resolveRefOrSHA_mem {repo : Repo} {s : Str} {c : Commit}
    (h : resolveRefOrSHA repo s = some c) : c ∈ repo.commits := by
  cases hr : refLookup repo.refs s with
  | none =>
    have h' : lookupC repo.commits s = some c := by
      unfold resolveRefOrSHA at h
      rw [hr] at h
      exact h
    exact (lookupC_some_mem h').1
  | some hh =>
    have h' : (match lookupC repo.commits hh with
        | some d => some d
        | none => lookupC repo.commits s) = some c := by
      unfold resolveRefOrSHA at h
      rw [hr] at h
      exact h
    cases hl : lookupC repo.commits hh with
    | some d =>
      rw [hl] at h'
      have h'' : some d = some c := h'
      cases h''
      exact (lookupC_some_mem hl).1
    | none =>
      rw [hl] at h'
      have h'' : lookupC repo.commits s = some c := h'
      exact (lookupC_some_mem h'').1

theorem validateCommits_eq_firstOffender (compile : RegexCompiler)
    (config : Config) :
    ∀ (commits : List Commit) (refName : Str),
      validateCommits compile config commits refName =
        firstOffender compile config (commits.map (fun c => (refName, c))) := by
  intro commits
  induction commits with
  | nil => intro refName; rfl
  | cons c cs ih =>
    intro refName
    simp only [validateCommits, firstOffender, List.map_cons]
    by_cases h1 : config.settings.skipMergeCommits = true ∧ c.parents.length > 1
    · have hsk : skipsCommit compile config c = true := by
        simp [skipsCommit, h1.1, h1.2]
      rw [if_pos h1, if_pos hsk, ih]
    · rw [if_neg h1]
      by_cases h2 : shouldSkipAuthor compile c.authorName c.authorEmail
          config.settings.skipAuthors = true
      · have hsk : skipsCommit compile config c = true := by
          simp [skipsCommit, h2]
        rw [if_pos h2, if_pos hsk, ih]
      · have hsk : skipsCommit compile config c = false := by
          by_cases hm : config.settings.skipMergeCommits = true
          · have hle : ¬ c.parents.length > 1 := fun hgt => h1 ⟨hm, hgt⟩
            simp [skipsCommit, h2, hle]
          · have hmf : config.settings.skipMergeCommits = false := by
              revert hm
              cases config.settings.skipMergeCommits <;> simp
            simp [skipsCommit, h2, hmf]
        rw [if_neg h2, if_neg (by simp [hsk] : ¬ skipsCommit compile config c = true)]
        by_cases hv :
            (EvaluateRules config.rules (ParseCommitMessage c.message)).length = 0
        · rw [if_neg (by omega :
            ¬ (EvaluateRules config.rules (ParseCommitMessage c.message)).length > 0),
            if_pos hv, ih]
        · rw [if_pos (by omega :
            (EvaluateRules config.rules (ParseCommitMessage c.message)).length > 0),
            if_neg hv]

theorem firstOffender_append (compile : RegexCompiler) (config : Config) :
    ∀ (l1 l2 : List (Str × Commit)),
      firstOffender compile config (l1 ++ l2) =
        match firstOffender compile config l1 with
        | some f => some f
        | none => firstOffender compile config l2 := by
  intro l1
  induction l1 with
  | nil => intro l2; rfl
  | cons p rest ih =>
    intro l2
    obtain ⟨r, c⟩ := p
    simp only [List.cons_append, firstOffender, List.append_eq]
    by_cases hs : skipsCommit compile config c = true
    · rw [if_pos hs, if_pos hs, ih]
    · rw [if_neg hs, if_neg hs]
      by_cases hv :
          (EvaluateRules config.rules (ParseCommitMessage c.message)).length = 0
      · rw [if_pos hv, if_pos hv, ih]
      · rw [if_neg hv, if_neg hv]

theorem firstOffender_eq_none_iff (compile : RegexCompiler) (config : Config) :
    ∀ (l : List (Str × Commit)),
      firstOffender compile config l = none ↔
        ∀ p ∈ l, skipsCommit compile config p.2 = false →
          EvaluateRules config.rules (ParseCommitMessage p.2.message) = [] := by
  intro l
  induction l with
  | nil => simp [firstOffender]
  | cons p rest ih =>
    obtain ⟨r, c⟩ := p
    simp only [firstOffender]
    by_cases hs : skipsCommit compile config c = true
    · rw [if_pos hs, ih]
      constructor
      · intro h q hq hsq
        rcases List.mem_cons.mp hq with rfl | hq'
        · rw [hs] at hsq
          cases hsq
        · exact h q hq' hsq
      · intro h q hq hsq
        exact h q (List.mem_cons_of_mem _ hq) hsq
    · rw [if_neg hs]
      have hs' : skipsCommit compile config c = false := by
        revert hs
        cases skipsCommit compile config c <;> simp
      by_cases hv :
          (EvaluateRules config.rules (ParseCommitMessage c.message)).length = 0
      · rw [if_pos hv, ih]
        have hve : EvaluateRules config.rules (ParseCommitMessage c.message) = [] :=
          List.length_eq_zero.mp hv
        constructor
        · intro h q hq hsq
          rcases List.mem_cons.mp hq with rfl | hq'
          · exact hve
          · exact h q hq' hsq
        · intro h q hq hsq
          exact h q (List.mem_cons_of_mem _ hq) hsq
      · rw [if_neg hv]
        constructor
        · intro h
          cases h
        · intro h
          exfalso
          apply hv
          rw [h (r, c) (List.mem_cons_self _ _) hs']
          rfl

theorem firstOffender_some (compile : RegexCompiler) (config : Config) :
    ∀ (l : List (Str × Commit)) (f : ValidationFailure),
      firstOffender compile config l = some f →
      (f.ref, f.commit) ∈ l ∧ skipsCommit compile config f.commit = false ∧
      f.violations =
        EvaluateRules config.rules (ParseCommitMessage f.commit.message) ∧
      f.violations ≠ [] := by
  intro l
  induction l with
  | nil =>
    intro f h
    cases h
  | cons p rest ih =>
    obtain ⟨r, c⟩ := p
    intro f h
    simp only [firstOffender] at h
    by_cases hs : skipsCommit compile config c = true
    · rw [if_pos hs] at h
      obtain ⟨hm, hrest⟩ := ih f h
      exact ⟨List.mem_cons_of_mem _ hm, hrest⟩
    · rw [if_neg hs] at h
      have hs' : skipsCommit compile config c = false := by
        revert hs
        cases skipsCommit compile config c <;> simp
      by_cases hv :
          (EvaluateRules config.rules (ParseCommitMessage c.message)).length = 0
      · rw [if_pos hv] at h
        obtain ⟨hm, hrest⟩ := ih f h
        exact ⟨List.mem_cons_of_mem _ hm, hrest⟩
      · rw [if_neg hv] at h
        cases h
        refine ⟨List.mem_cons_self _ _, hs', rfl, ?_⟩
        intro hnil
        apply hv
        have hnil' : EvaluateRules config.rules (ParseCommitMessage c.message) =
            [] := hnil
        rw [hnil']
        rfl

theorem runStdinMode_cons_skip (compile : RegexCompiler) (config : Config)
    (repo : Repo) (line : Str) (rest : List Str)
    (hpe : parseEvent line = none) :
    runStdinMode compile config repo (line :: rest) =
      runStdinMode compile config repo rest := by
  simp only [runStdinMode]
  split_ifs with h1 h2 h3 h4
  · rfl
  · rfl
  · rfl
  · exfalso
    simp only [parseEvent] at hpe
    rw [if_neg h1, if_neg h2, if_neg h3] at hpe
    cases hpe
  · exfalso
    simp only [parseEvent] at hpe
    rw [if_neg h1, if_neg h2, if_neg h3] at hpe
    cases hpe

theorem runStdinMode_cons_event (compile : RegexCompiler) (config : Config)
    (repo : Repo) (line : Str) (rest : List Str) (e : RefEvent)
    (hpe : parseEvent line = some e) :
    runStdinMode compile config repo (line :: rest) =
      match eventCommits config repo e with
      | Except.error err => some err
      | Except.ok cs =>
        match (validateCommits compile config cs e.localRef).map
            RunError.validation with
        | some er => some er
        | none => runStdinMode compile config repo rest := by
  simp only [parseEvent] at hpe
  by_cases h1 : trimSpace line = []
  · rw [if_pos h1] at hpe
    cases hpe
  · rw [if_neg h1] at hpe
    by_cases h2 : (fieldsOf (trimSpace line)).length < minRefFields
    · rw [if_pos h2] at hpe
      cases hpe
    · rw [if_neg h2] at hpe
      by_cases h3 : (fieldsOf (trimSpace line)).getD 1 [] = gitZeroHash
      · rw [if_pos h3] at hpe
        cases hpe
      · rw [if_neg h3] at hpe
        have he := Option.some.inj hpe
        subst he
        simp only [runStdinMode]
        rw [if_neg h1, if_neg h2, if_neg h3]
        by_cases h4 : (fieldsOf (trimSpace line)).getD 3 [] = gitZeroHash
        · rw [if_pos h4]
          simp only [eventCommits]
          rw [if_pos h4]
          cases hm : resolveRefOrSHA repo config.settings.mainRef with
          | none => rfl
          | some mc =>
            simp only [checkCommits]
            cases hgr : getCommitsInRange repo.commits mc.hash
                ((fieldsOf (trimSpace line)).getD 1 []) with
            | error e1 => rfl
            | ok cs =>
              cases hvv : (validateCommits compile config cs
                  ((fieldsOf (trimSpace line)).getD 0 [])).map
                  RunError.validation with
              | none => rfl
              | some er => rfl
        · rw [if_neg h4]
          simp only [eventCommits]
          rw [if_neg h4]
          simp only [checkCommits]
          cases hgr : getCommitsInRange repo.commits
              ((fieldsOf (trimSpace line)).getD 3 [])
              ((fieldsOf (trimSpace line)).getD 1 []) with
          | error e1 => rfl
          | ok cs =>
            cases hvv : (validateCommits compile config cs
                ((fieldsOf (trimSpace line)).getD 0 [])).map
                RunError.validation with
            | none => rfl
            | some er => rfl

theorem runStdinMode_eq_firstOffender (compile : RegexCompiler)
    (config : Config) (repo : Repo) :
    ∀ (stdin : List Str),
      (∀ line ∈ stdin, ∀ e, parseEvent line = some e →
        ∃ cs, eventCommits config repo e = Except.ok cs) →
      runStdinMode compile config repo stdin =
        (firstOffender compile config (stdinPairs config repo stdin)).map
          RunError.validation := by
  intro stdin
  induction stdin with
  | nil => intro _; rfl
  | cons line rest ih =>
    intro hres
    have hrest : ∀ l ∈ rest, ∀ e, parseEvent l = some e →
        ∃ cs, eventCommits config repo e = Except.ok cs :=
      fun l hl => hres l (List.mem_cons_of_mem line hl)
    cases hpe : parseEvent line with
    | none =>
      have hpairs : stdinPairs config repo (line :: rest) =
          stdinPairs config repo rest := by
        simp only [stdinPairs, List.flatMap_cons]
        rw [hpe]
        simp
      rw [runStdinMode_cons_skip compile config repo line rest hpe, hpairs]
      exact ih hrest
    | some e =>
      obtain ⟨cs, hcs⟩ := hres line (List.mem_cons_self line rest) e hpe
      have hpairs : stdinPairs config repo (line :: rest) =
          cs.map (fun c => (e.localRef, c)) ++ stdinPairs config repo rest := by
        have h0 : stdinPairs config repo (line :: rest) =
            (match eventCommits config repo e with
              | Except.error _ => ([] : List (Str × Commit))
              | Except.ok cs2 => cs2.map (fun c => (e.localRef, c))) ++
              stdinPairs config repo rest := by
          simp only [stdinPairs, List.flatMap_cons]
          rw [hpe]
        rw [h0, hcs]
      have hstep : (match eventCommits config repo e with
          | Except.error err => some err
          | Except.ok cs2 =>
            match (validateCommits compile config cs2 e.localRef).map
                RunError.validation with
            | some er => some er
            | none => runStdinMode compile config repo rest) =
          (match (validateCommits compile config cs e.localRef).map
              RunError.validation with
            | some er => some er
            | none => runStdinMode compile config repo rest) := by
        rw [hcs]
      rw [runStdinMode_cons_event compile config repo line rest e hpe, hstep,
        hpairs, firstOffender_append,
        validateCommits_eq_firstOffender compile config cs e.localRef, ih hrest]
      cases firstOffender compile config (cs.map (fun c => (e.localRef, c))) with
      | none => rfl
      | some f => rfl

/-- C5: across a whole pre-push stdin stream, the run is the scan of the
flattened (ref, commit) pairs, events in input order and commits in
resolver order: the first surviving commit with violations stops
everything and is surfaced with its ref and its ordered violation list,
and the run succeeds exactly when every surviving commit of every event
has no violations. -/
theorem c5_first_violation_stops_run (compile : RegexCompiler)
    (config : Config) (repo : Repo) (stdin : List Str)
    (hres : ∀ line ∈ stdin, ∀ e, parseEvent line = some e →
      ∃ cs, eventCommits config repo e = Except.ok cs) :
    runStdinMode compile config repo stdin =
      (firstOffender compile config (stdinPairs config repo stdin)).map
        RunError.validation ∧
    (runStdinMode compile config repo stdin = none ↔
      ∀ p ∈ stdinPairs config repo stdin,
        skipsCommit compile config p.2 = false →
        EvaluateRules config.rules (ParseCommitMessage p.2.message) = []) ∧
    (∀ f, runStdinMode compile config repo stdin =
        some (RunError.validation f) →
      (f.ref, f.commit) ∈ stdinPairs config repo stdin ∧
      skipsCommit compile config f.commit = false ∧
      f.violations =
        EvaluateRules config.rules (ParseCommitMessage f.commit.message) ∧
      f.violations ≠ []) := by
  have heq := runStdinMode_eq_firstOffender compile config repo stdin hres
  refine ⟨heq, ?_, ?_⟩
  · rw [heq]
    constructor
    · intro h
      apply (firstOffender_eq_none_iff compile config
        (stdinPairs config repo stdin)).mp
      cases hf : firstOffender compile config (stdinPairs config repo stdin) with
      | none => rfl
      | some f =>
        rw [hf] at h
        cases h
    · intro h
      rw [(firstOffender_eq_none_iff compile config
        (stdinPairs config repo stdin)).mpr h]
      rfl
  · intro f h
    rw [heq] at h
    cases hf : firstOffender compile config (stdinPairs config repo stdin) with
    | none =>
      rw [hf] at h
      cases h
    | some g =>
      rw [hf] at h
      have hg : g = f := by
        have h' : some (RunError.validation g) =
            some (RunError.validation f) := h
        cases Option.some.inj h'
        rfl
      rw [hg] at hf
      exact firstOffender_some compile config _ f hf

/-- Witness for C5 on the demo repository: one new-branch event whose only
commit passes the demo rule. -/
theorem c5_first_violation_stops_run_witness :
    runStdinMode compileNone demoConfig demoRepo [demoLine] =
      (firstOffender compileNone demoConfig
        (stdinPairs demoConfig demoRepo [demoLine])).map RunError.validation :=
  (c5_first_violation_stops_run compileNone demoConfig demoRepo [demoLine]
    (by
      intro line hl e hpe
      rw [List.mem_singleton.mp hl] at hpe
      have hp : parseEvent demoLine = some ⟨['x'], ['b'], gitZeroHash⟩ := by rfl
      rw [hp] at hpe
      cases Option.some.inj hpe
      exact ⟨[demoB], by rfl⟩)).1

/-- C6: a push-hook event whose remote OID is the zero sentinel and whose
local OID resolves validates exactly the commits reachable from the local
head but not from the commit the configured main_ref resolves to; commits
already on main are never in the validated range. -/
theorem c6_new_branch_checks_against_main (config : Config) (repo : Repo)
    (ref localOID : Str) (lc mc : Commit)
    (hnd : nodupHashes repo.commits) (hcl : closedRepo repo.commits)
    (hmain : resolveRefOrSHA repo config.settings.mainRef = some mc)
    (hlocal : lookupC repo.commits localOID = some lc) :
    ∃ cs, eventCommits config repo ⟨ref, localOID, gitZeroHash⟩ =
        Except.ok cs ∧
      (∀ c ∈ cs, ¬ Reach repo.commits mc.hash c.hash) ∧
      (∀ h, (∃ c ∈ cs, c.hash = h) ↔
        (Reach repo.commits localOID h ∧ ¬ Reach repo.commits mc.hash h)) := by
  have hmc : lookupC repo.commits mc.hash = some mc :=
    lookupC_self hnd (resolveRefOrSHA_mem hmain)
  obtain ⟨he, hnodup, hiff⟩ := getCommitsInRange_spec repo.commits hnd hcl
    mc.hash localOID mc lc hmc hlocal
  refine ⟨_, ?_, fun c hc => ((hiff c.hash).mp ⟨c, hc, rfl⟩).2, hiff⟩
  simp only [eventCommits]
  rw [if_pos trivial, hmain]
  show Except.mapError RunError.getCommits
      (getCommitsInRange repo.commits mc.hash localOID) = _
  rw [he]
  rfl

/-- Witness for C6: pushing the new branch head b with main at a validates
exactly the commit b. -/
theorem c6_new_branch_checks_against_main_witness :
    (∃ cs, eventCommits demoConfig demoRepo ⟨['x'], ['b'], gitZeroHash⟩ =
        Except.ok cs ∧
      (∀ c ∈ cs, ¬ Reach demoRepo.commits demoA.hash c.hash) ∧
      (∀ h, (∃ c ∈ cs, c.hash = h) ↔
        (Reach demoRepo.commits ['b'] h ∧
          ¬ Reach demoRepo.commits demoA.hash h))) ∧
    eventCommits demoConfig demoRepo ⟨['x'], ['b'], gitZeroHash⟩ =
      Except.ok [demoB] :=
  ⟨c6_new_branch_checks_against_main demoConfig demoRepo ['x'] ['b'] demoB
      demoA (by unfold nodupHashes hashesOf; decide)
      (by unfold closedRepo hashesOf; decide) (by rfl) (by rfl),
    by rfl⟩

end Githooks
